import Mathlib

/-!
Shallow embedding of the full-text-search program `fts.go` (package main):
the analyzer pipeline, the inverted index with its `add` and `search`
operations, the two-pointer posting-list `intersection`, the persistence
codec, and the control flow of `main`. Go slices of `int` become
`List Int` (document ids are only compared, never used in arithmetic, so
no overflow modelling is needed); the Go map `index` becomes an
association list with Go-map lookup/insert semantics.

The snowball stemmer is an external library, so every definition that
analyses text is parametrised by a stemming function
`stem : String → String`.
-/

set_option maxRecDepth 4000

/-- Go struct `document` (fts.go lines 22-28). `URLSHA1` is a byte slice;
its bytes are modelled as `List Int`. -/
structure document where
  Title : String
  URL : String
  Text : String
  URLSHA1 : List Int
  ID : Int
deriving DecidableEq, Repr

/-- Go `func tokenize` splits on any rune that is neither a letter nor a
number (fts.go lines 66-71). Go's `unicode.IsLetter`/`unicode.IsNumber`
are modelled by `Char.isAlpha`/`Char.isDigit` (their restriction to
ASCII; no claim depends on the exact character classes). -/
def isTokenRune (c : Char) : Bool := c.isAlpha || c.isDigit

/-- Accumulating splitter behind `tokenize`: `acc` holds the current run
of token runes in reverse; empty runs between delimiters are dropped,
exactly as `strings.FieldsFunc` does. -/
def tokenizeAux : List Char → List Char → List String
  | [], [] => []
  | [], acc => [String.mk acc.reverse]
  | c :: cs, acc =>
    if isTokenRune c then tokenizeAux cs (c :: acc)
    else if acc.isEmpty then tokenizeAux cs []
    else String.mk acc.reverse :: tokenizeAux cs []

/-- Go `func tokenize` (fts.go lines 66-71). -/
def tokenize (text : String) : List String := tokenizeAux text.data []

/-- Go `func lowercaseFilter` (fts.go lines 73-79); `strings.ToLower` is
modelled by per-character `Char.toLower` (its ASCII restriction). -/
def lowercaseFilter (tokens : List String) : List String :=
  tokens.map (fun token => String.mk (token.data.map Char.toLower))

/-- Go `var stopwords` (fts.go lines 81-84), a map used as a set. -/
def stopwords : List String :=
  ["a", "and", "be", "have", "i", "in", "of", "that", "the", "to"]

/-- Go `func stopwordFilter` (fts.go lines 86-94). -/
def stopwordFilter (tokens : List String) : List String :=
  tokens.filter (fun token => !(stopwords.contains token))

/-- Go `func stemmerFilter` (fts.go lines 96-102); the external snowball
stemmer `snowballeng.Stem(·, false)` is the parameter `stem`. -/
def stemmerFilter (stem : String → String) (tokens : List String) : List String :=
  tokens.map stem

/-- Go `func analyze` (fts.go lines 104-110). -/
def analyze (stem : String → String) (text : String) : List String :=
  stemmerFilter stem (stopwordFilter (lowercaseFilter (tokenize text)))

/-- Go `type index map[string][]int` (fts.go line 112), modelled as an
association list carrying the map's bindings. -/
abbrev index := List (String × List Int)

/-- Go map read `idx[token]` with presence: `none` models "key absent"
(whose zero-value read is the nil slice). -/
def lookupIdx : index → String → Option (List Int)
  | [], _ => none
  | (k, v) :: rest, t => if k = t then some v else lookupIdx rest t

/-- Go map write `idx[token] = ids`: replace the binding if the key is
present, otherwise add it. -/
def insertIdx : index → String → List Int → index
  | [], k, v => [(k, v)]
  | (k', v') :: rest, k, v =>
    if k' = k then (k, v) :: rest else (k', v') :: insertIdx rest k v

/-- Body of the inner loop of `index.add` (fts.go lines 117-122): read the
token's posting list (nil slice = `[]` when absent), skip when its last
element is already this document's id, otherwise append the id and store.
`ids.getLast? = some d` is Go's `ids != nil && ids[len(ids)-1] == doc.ID`
for nil or non-empty slices; a stored empty slice would make the Go code
panic, so theorems about arbitrary indices assume stored lists non-empty. -/
def addToken (idx : index) (d : Int) (token : String) : index :=
  if ((lookupIdx idx token).getD []).getLast? = some d then idx
  else insertIdx idx token (((lookupIdx idx token).getD []) ++ [d])

/-- The per-document token loop of `index.add` (fts.go line 116). -/
def addTokens (idx : index) (d : Int) (tokens : List String) : index :=
  tokens.foldl (fun i token => addToken i d token) idx

/-- Go `func (idx index) add(docs []document)` (fts.go lines 114-125). -/
def index.add (stem : String → String) (idx : index) (docs : List document) : index :=
  docs.foldl (fun i doc => addTokens i doc.ID (analyze stem doc.Text)) idx

/-- A sequence of `add` calls starting from the empty index made by
`make(index)` (fts.go line 167). -/
def addAll (stem : String → String) (batches : List (List document)) : index :=
  batches.foldl (index.add stem) []

/-- Go `func intersection` (fts.go lines 127-146): two-pointer merge scan
over two slices. -/
def intersection : List Int → List Int → List Int
  | [], _ => []
  | _ :: _, [] => []
  | a :: as, b :: bs =>
    if a < b then intersection as (b :: bs)
    else if b < a then intersection (a :: as) bs
    else a :: intersection as bs
termination_by a b => a.length + b.length

/-- The token loop of `search` (fts.go lines 150-161): `r : Option _`
models the Go slice `r`, with `none` for nil; an absent token returns nil
immediately. -/
def searchLoop (idx : index) : List String → Option (List Int) → Option (List Int)
  | [], r => r
  | token :: rest, r =>
    match lookupIdx idx token with
    | some ids =>
      match r with
      | none => searchLoop idx rest (some ids)
      | some l => searchLoop idx rest (some (intersection l ids))
    | none => none

/-- Go `func (idx index) search(text string) []int` (fts.go lines
148-163); the result `none` is Go's nil slice, which is both the
"no results" value and the empty id sequence. -/
def index.search (stem : String → String) (idx : index) (text : String) : Option (List Int) :=
  searchLoop idx (analyze stem text) none

/-- The three-way outcome of `os.Stat(idxFilename)` in `main` (fts.go
lines 169, 183, 211): the file exists, does not exist, or the probe
itself failed. -/
inductive StatResult where
  | statExists
  | statNotExists
  | statOtherError
deriving DecidableEq, Repr

/-- The I/O environment `main` runs against: each field is the outcome of
one external operation, in the order `main` performs them. `decodeResult
= none` models a gob decode error, `docsResult = none` a `loadDocuments`
failure, `createOk`/`encodeOk` the success of `os.Create` and
`encoder.Encode`. -/
structure Env where
  statResult : StatResult
  openOk : Bool
  decodeResult : Option index
  docsResult : Option (List document)
  createOk : Bool
  encodeOk : Bool
deriving Repr

/-- How a run of `main` ends: `panicked` for `panic(err)`, `fatalError`
for `log.Fatal`, and `printed r` when control reaches
`r := idx.search("small wild cat"); fmt.Println(r)` (fts.go lines
219-221). -/
inductive Outcome where
  | panicked
  | fatalError
  | printed (r : Option (List Int))
deriving DecidableEq, Repr

/-- True exactly when the run reached the query-and-print step. -/
def Outcome.ranQuery : Outcome → Bool
  | .printed _ => true
  | _ => false

/-- Control flow of Go `func main` (fts.go lines 165-221) over an
environment of I/O outcomes. The index starts as the empty map
(`make(index)`, line 167). In the exists-branch, an open error panics
(line 174) and a decode error is silently discarded (line 182: the error
returned by `decoder.Decode` is not checked), leaving the index empty. In
the not-exists branch a `loadDocuments` error is fatal (line 189), and a
create or encode error panics (lines 200, 208) before the search at line
219 can run. -/
def mainFlow (stem : String → String) (env : Env) : Outcome :=
  match env.statResult with
  | .statExists =>
    if env.openOk then
      match env.decodeResult with
      | some decoded => .printed (index.search stem decoded "small wild cat")
      | none => .printed (index.search stem [] "small wild cat")
    else .panicked
  | .statNotExists =>
    match env.docsResult with
    | none => .fatalError
    | some docs =>
      if env.createOk then
        if env.encodeOk then
          .printed (index.search stem (index.add stem [] docs) "small wild cat")
        else .panicked
      else .panicked
  | .statOtherError => .fatalError

/-- Modelled from the spec: the persistence codec. The Go source
serializes the index with `encoding/gob` (fts.go lines 178-182 and
204-210), an external library; per spec section 4.4 the codec writes the
whole term-to-posting-list mapping as one self-describing binary blob and
reads it back with identical keys and order-preserving posting lists. A
blob is modelled as a stream of primitive tokens. -/
inductive GobTok where
  | num (n : Int)
  | str (s : String)
deriving DecidableEq, Repr

/-- Modelled from the spec: `save` (spec section 4.4) emits the number of
bindings, then each binding as its key, the posting-list length, and the
posting-list entries. -/
def saveIndex (idx : index) : List GobTok :=
  GobTok.num idx.length ::
    idx.flatMap (fun p => GobTok.str p.1 :: GobTok.num p.2.length :: p.2.map GobTok.num)

/-- Decode `n` posting-list entries from the stream. -/
def loadPostings : Nat → List GobTok → Option (List Int × List GobTok)
  | 0, rest => some ([], rest)
  | n + 1, GobTok.num x :: rest =>
    match loadPostings n rest with
    | some (xs, r) => some (x :: xs, r)
    | none => none
  | _ + 1, _ => none

/-- Decode `n` bindings from the stream. -/
def loadEntries : Nat → List GobTok → Option (index × List GobTok)
  | 0, rest => some ([], rest)
  | n + 1, GobTok.str k :: GobTok.num c :: rest =>
    match loadPostings c.toNat rest with
    | some (ps, r) =>
      match loadEntries n r with
      | some (es, r2) => some ((k, ps) :: es, r2)
      | none => none
    | none => none
  | _ + 1, _ => none

/-- Modelled from the spec: `load` (spec section 4.4) fully deserializes
one blob back into the in-memory mapping; a malformed or incomplete blob
fails. -/
def loadIndex (toks : List GobTok) : Option index :=
  match toks with
  | GobTok.num n :: rest =>
    match loadEntries n.toNat rest with
    | some (es, []) => some es
    | _ => none
  | _ => none

theorem lookupIdx_insertIdx (idx : index) (k : String) (v : List Int) (t : String) :
    lookupIdx (insertIdx idx k v) t = if k = t then some v else lookupIdx idx t := by
  induction idx with
  | nil => simp [insertIdx, lookupIdx]
  | cons p rest ih =>
    obtain ⟨k1, v1⟩ := p
    by_cases h1 : k1 = k
    · subst h1
      by_cases h2 : k1 = t <;> simp [insertIdx, lookupIdx, h2]
    · by_cases h2 : k1 = t
      · subst h2
        have hk : ¬ k = k1 := fun he => h1 he.symm
        simp [insertIdx, h1, lookupIdx, hk]
      · simp [insertIdx, h1, lookupIdx, h2, ih]

theorem lookupIdx_mem {idx : index} {t : String} {l : List Int}
    (h : lookupIdx idx t = some l) : (t, l) ∈ idx := by
  induction idx with
  | nil => simp [lookupIdx] at h
  | cons p rest ih =>
    obtain ⟨k1, v1⟩ := p
    by_cases h1 : k1 = t
    · subst h1
      simp [lookupIdx] at h
      simp [h]
    · simp [lookupIdx, h1] at h
      exact List.mem_cons_of_mem _ (ih h)

theorem mem_insertIdx {idx : index} {k : String} {v : List Int} {p : String × List Int}
    (h : p ∈ insertIdx idx k v) : p = (k, v) ∨ p ∈ idx := by
  induction idx with
  | nil => simpa [insertIdx] using h
  | cons q rest ih =>
    obtain ⟨k1, v1⟩ := q
    by_cases h1 : k1 = k
    · subst h1
      simp [insertIdx] at h
      rcases h with h | h
      · exact Or.inl h
      · exact Or.inr (List.mem_cons_of_mem _ h)
    · simp [insertIdx, h1] at h
      rcases h with h | h
      · exact Or.inr (by simp [h])
      · rcases ih h with h2 | h2
        · exact Or.inl h2
        · exact Or.inr (List.mem_cons_of_mem _ h2)

theorem mem_intersection_sub {a b : List Int} {x : Int} (h : x ∈ intersection a b) :
    x ∈ a ∧ x ∈ b := by
  induction a, b using intersection.induct with
  | case1 b => simp [intersection] at h
  | case2 a as => simp [intersection] at h
  | case3 a as b bs hlt ih =>
    rw [intersection, if_pos hlt] at h
    obtain ⟨h1, h2⟩ := ih h
    exact ⟨List.mem_cons_of_mem _ h1, h2⟩
  | case4 a as b bs hlt hgt ih =>
    rw [intersection, if_neg hlt, if_pos hgt] at h
    obtain ⟨h1, h2⟩ := ih h
    exact ⟨h1, List.mem_cons_of_mem _ h2⟩
  | case5 a as b bs hlt hgt ih =>
    rw [intersection, if_neg hlt, if_neg hgt] at h
    have hab : a = b := le_antisymm (not_lt.mp hgt) (not_lt.mp hlt)
    rcases List.mem_cons.mp h with h1 | h1
    · subst h1
      exact ⟨List.mem_cons_self _ _, by simp [hab]⟩
    · obtain ⟨h1, h2⟩ := ih h1
      exact ⟨List.mem_cons_of_mem _ h1, List.mem_cons_of_mem _ h2⟩

theorem mem_intersection {a b : List Int} (ha : List.Pairwise (· < ·) a)
    (hb : List.Pairwise (· < ·) b) (x : Int) :
    x ∈ intersection a b ↔ (x ∈ a ∧ x ∈ b) := by
  induction a, b using intersection.induct with
  | case1 b => simp [intersection]
  | case2 a as => simp [intersection]
  | case3 a as b bs hlt ih =>
    rw [intersection, if_pos hlt, ih (List.Pairwise.of_cons ha) hb]
    constructor
    · rintro ⟨h1, h2⟩
      exact ⟨List.mem_cons_of_mem _ h1, h2⟩
    · rintro ⟨h1, h2⟩
      refine ⟨?_, h2⟩
      rcases List.mem_cons.mp h1 with h1 | h1
      · subst h1
        rcases List.mem_cons.mp h2 with h2 | h2
        · omega
        · have := List.rel_of_pairwise_cons hb h2
          omega
      · exact h1
  | case4 a as b bs hlt hgt ih =>
    rw [intersection, if_neg hlt, if_pos hgt, ih ha (List.Pairwise.of_cons hb)]
    constructor
    · rintro ⟨h1, h2⟩
      exact ⟨h1, List.mem_cons_of_mem _ h2⟩
    · rintro ⟨h1, h2⟩
      refine ⟨h1, ?_⟩
      rcases List.mem_cons.mp h2 with h2 | h2
      · subst h2
        rcases List.mem_cons.mp h1 with h1 | h1
        · omega
        · have := List.rel_of_pairwise_cons ha h1
          omega
      · exact h2
  | case5 a as b bs hlt hgt ih =>
    have hab : a = b := by omega
    rw [intersection, if_neg hlt, if_neg hgt]
    subst hab
    simp only [List.mem_cons, ih (List.Pairwise.of_cons ha) (List.Pairwise.of_cons hb)]
    constructor
    · rintro (h1 | ⟨h1, h2⟩)
      · exact ⟨Or.inl h1, Or.inl h1⟩
      · exact ⟨Or.inr h1, Or.inr h2⟩
    · rintro ⟨h1 | h1, h2 | h2⟩
      · exact Or.inl h1
      · exact Or.inl h1
      · exact Or.inl h2
      · exact Or.inr ⟨h1, h2⟩

theorem intersection_pairwise {a b : List Int} (ha : List.Pairwise (· < ·) a)
    (hb : List.Pairwise (· < ·) b) : List.Pairwise (· < ·) (intersection a b) := by
  induction a, b using intersection.induct with
  | case1 b => simp [intersection]
  | case2 a as => simp [intersection]
  | case3 a as b bs hlt ih =>
    rw [intersection, if_pos hlt]
    exact ih (List.Pairwise.of_cons ha) hb
  | case4 a as b bs hlt hgt ih =>
    rw [intersection, if_neg hlt, if_pos hgt]
    exact ih ha (List.Pairwise.of_cons hb)
  | case5 a as b bs hlt hgt ih =>
    rw [intersection, if_neg hlt, if_neg hgt]
    refine List.pairwise_cons.mpr ⟨?_, ih (List.Pairwise.of_cons ha) (List.Pairwise.of_cons hb)⟩
    intro y hy
    have hmem := (mem_intersection_sub hy).1
    exact List.rel_of_pairwise_cons ha hmem

theorem searchLoop_spec (idx : index) (hsorted : ∀ p ∈ idx, List.Pairwise (· < ·) p.2) :
    ∀ (ts : List String) (r : List Int),
      List.Pairwise (· < ·) r →
      (∀ t ∈ ts, (lookupIdx idx t).isSome) →
      ∃ l, searchLoop idx ts (some r) = some l ∧ List.Pairwise (· < ·) l ∧
        ∀ x, x ∈ l ↔ (x ∈ r ∧ ∀ t ∈ ts, ∃ ps, lookupIdx idx t = some ps ∧ x ∈ ps) := by
  intro ts
  induction ts with
  | nil =>
    intro r hr _
    exact ⟨r, rfl, hr, by simp⟩
  | cons t ts ih =>
    intro r hr hall
    have htp : (lookupIdx idx t).isSome := hall t (List.mem_cons_self _ _)
    obtain ⟨ids, heq⟩ := Option.isSome_iff_exists.mp htp
    have hids : List.Pairwise (· < ·) ids := hsorted (t, ids) (lookupIdx_mem heq)
    have hr2 : List.Pairwise (· < ·) (intersection r ids) := intersection_pairwise hr hids
    obtain ⟨l, hl1, hl2, hl3⟩ :=
      ih (intersection r ids) hr2 (fun u hu => hall u (List.mem_cons_of_mem _ hu))
    refine ⟨l, ?_, hl2, ?_⟩
    · rw [searchLoop, heq]
      exact hl1
    · intro x
      rw [hl3 x, mem_intersection hr hids]
      constructor
      · rintro ⟨⟨hxr, hxids⟩, hrest⟩
        refine ⟨hxr, ?_⟩
        intro u hu
        rcases List.mem_cons.mp hu with hu | hu
        · subst hu
          exact ⟨ids, heq, hxids⟩
        · exact hrest u hu
      · rintro ⟨hxr, hrest⟩
        obtain ⟨ps, hps1, hps2⟩ := hrest t (List.mem_cons_self _ _)
        rw [heq] at hps1
        cases hps1
        exact ⟨⟨hxr, hps2⟩, fun u hu => hrest u (List.mem_cons_of_mem _ hu)⟩

/-- C1: on an index whose posting lists are strictly increasing (hence
duplicate-free), a query whose analysis is non-empty and all of whose
terms are present in the index returns exactly the document ids lying in
every queried term's posting list, strictly increasing and without
duplicates. -/
theorem search_intersection_spec (stem : String → String) (idx : index) (q : String)
    (hsorted : ∀ p ∈ idx, List.Pairwise (· < ·) p.2)
    (hne : analyze stem q ≠ [])
    (hall : ∀ t ∈ analyze stem q, (lookupIdx idx t).isSome) :
    ∃ l, index.search stem idx q = some l ∧ List.Pairwise (· < ·) l ∧ l.Nodup ∧
      ∀ x, x ∈ l ↔ ∀ t ∈ analyze stem q, ∃ ps, lookupIdx idx t = some ps ∧ x ∈ ps := by
  rcases hq : analyze stem q with _ | ⟨t0, ts⟩
  · exact absurd hq hne
  have htp : (lookupIdx idx t0).isSome := by
    rw [hq] at hall
    exact hall t0 (List.mem_cons_self _ _)
  obtain ⟨ids0, heq0⟩ := Option.isSome_iff_exists.mp htp
  have hids0 : List.Pairwise (· < ·) ids0 := hsorted (t0, ids0) (lookupIdx_mem heq0)
  have hall2 : ∀ t ∈ ts, (lookupIdx idx t).isSome := by
    rw [hq] at hall
    exact fun u hu => hall u (List.mem_cons_of_mem _ hu)
  obtain ⟨l, hl1, hl2, hl3⟩ := searchLoop_spec idx hsorted ts ids0 hids0 hall2
  refine ⟨l, ?_, hl2, hl2.imp (fun hx => ne_of_lt hx), ?_⟩
  · unfold index.search
    rw [hq, searchLoop, heq0]
    exact hl1
  · intro x
    rw [hl3 x]
    constructor
    · rintro ⟨hx0, hrest⟩
      intro u hu
      rcases List.mem_cons.mp hu with hu | hu
      · subst hu
        exact ⟨ids0, heq0, hx0⟩
      · exact hrest u hu
    · intro hrest
      obtain ⟨ps, hps1, hps2⟩ := hrest t0 (List.mem_cons_self _ _)
      rw [heq0] at hps1
      cases hps1
      exact ⟨hps2, fun u hu => hrest u (List.mem_cons_of_mem _ hu)⟩

theorem search_intersection_spec_witness :
    ∃ l,
      index.search (fun s => s) [("small", [3, 7, 9]), ("cat", [7])] "small cat" = some l ∧
        List.Pairwise (· < ·) l ∧ l.Nodup ∧
        ∀ x, x ∈ l ↔
          ∀ t ∈ analyze (fun s => s) "small cat",
            ∃ ps, lookupIdx [("small", [3, 7, 9]), ("cat", [7])] t = some ps ∧ x ∈ ps :=
  search_intersection_spec (fun s => s) [("small", [3, 7, 9]), ("cat", [7])] "small cat"
    (by decide) (by decide) (by decide)

theorem searchLoop_absent {idx : index} {t : String} (habs : lookupIdx idx t = none) :
    ∀ (ts : List String) (r : Option (List Int)), t ∈ ts → searchLoop idx ts r = none := by
  intro ts
  induction ts with
  | nil => intro r h; simp at h
  | cons u rest ih =>
    intro r hmem
    rcases hu : lookupIdx idx u with _ | ids
    · cases r <;> simp [searchLoop, hu]
    · have hut : t ∈ rest := by
        rcases List.mem_cons.mp hmem with h | h
        · subst h
          rw [habs] at hu
          cases hu
        · exact h
      cases r <;> simp only [searchLoop, hu] <;> exact ih _ hut

/-- C4: if any term of the analyzed query is absent from the index,
`search` returns the no-results value (Go's nil slice, modelled `none`),
and the loop short-circuits: from the position of the absent term the
result is `none` whatever terms remain. -/
theorem search_absent_term (stem : String → String) (idx : index) (q : String) (t : String)
    (ht : t ∈ analyze stem q) (habs : lookupIdx idx t = none) :
    index.search stem idx q = none ∧
      ∀ (rest : List String) (r : Option (List Int)), searchLoop idx (t :: rest) r = none := by
  constructor
  · exact searchLoop_absent habs (analyze stem q) none ht
  · intro rest r
    cases r <;> simp [searchLoop, habs]

theorem search_absent_term_witness :
    index.search (fun s => s) [("cat", [7])] "small cat" = none ∧
      ∀ (rest : List String) (r : Option (List Int)),
        searchLoop [("cat", [7])] ("small" :: rest) r = none :=
  search_absent_term (fun s => s) [("cat", [7])] "small cat" "small" (by decide) (by decide)

/-- C7: a query whose analysis yields no terms (for example an empty or
whitespace-only string) makes `search` return its initial nil slice,
which contains no document ids: the empty result. -/
theorem search_empty_analysis (stem : String → String) (idx : index) (q : String)
    (h : analyze stem q = []) :
    index.search stem idx q = none := by
  unfold index.search
  rw [h]
  rfl

theorem search_empty_analysis_witness :
    index.search (fun s => s) [("cat", [7])] " .! " = none :=
  search_empty_analysis (fun s => s) [("cat", [7])] " .! " (by decide)

theorem mem_le_getLast? {l : List Int} (hs : List.Pairwise (· < ·) l) :
    ∀ x ∈ l, ∃ y, l.getLast? = some y ∧ x ≤ y := by
  induction l with
  | nil => simp
  | cons a l ih =>
    intro x hx
    rcases List.mem_cons.mp hx with h | h
    · subst h
      cases l with
      | nil => exact ⟨x, rfl, le_refl x⟩
      | cons b l2 =>
        obtain ⟨y, hy1, hy2⟩ :=
          ih (List.Pairwise.of_cons hs) b (List.mem_cons_self b l2)
        refine ⟨y, by rw [List.getLast?_cons_cons]; exact hy1, ?_⟩
        have hym : y ∈ b :: l2 := by
          obtain ⟨hne2, heq2⟩ := List.mem_getLast?_eq_getLast (Option.mem_def.mpr hy1)
          rw [heq2]
          exact List.getLast_mem hne2
        exact le_of_lt (List.rel_of_pairwise_cons hs hym)
    · obtain ⟨y, hy1, hy2⟩ := ih (List.Pairwise.of_cons hs) x h
      cases l with
      | nil => simp at h
      | cons b l2 =>
        exact ⟨y, by rw [List.getLast?_cons_cons]; exact hy1, hy2⟩

theorem getLast?_mem_of_eq {l : List Int} {y : Int} (h : l.getLast? = some y) : y ∈ l := by
  obtain ⟨hne, heq⟩ := List.mem_getLast?_eq_getLast (Option.mem_def.mpr h)
  rw [heq]
  exact List.getLast_mem hne

theorem addToken_inv {idx : index} {d : Int} {u : String}
    (hs : ∀ p ∈ idx, List.Pairwise (· < ·) p.2)
    (hb : ∀ p ∈ idx, ∀ x ∈ p.2, x ≤ d) :
    ∀ p ∈ addToken idx d u,
      List.Pairwise (· < ·) p.2 ∧ ∀ x ∈ p.2, (∃ q ∈ idx, x ∈ q.2) ∨ x = d := by
  intro p hp
  unfold addToken at hp
  by_cases h : ((lookupIdx idx u).getD []).getLast? = some d
  · rw [if_pos h] at hp
    exact ⟨hs p hp, fun x hx => Or.inl ⟨p, hp, hx⟩⟩
  · rw [if_neg h] at hp
    rcases mem_insertIdx hp with hq | hq
    · rcases hlook : lookupIdx idx u with _ | l
      · rw [hlook] at hq
        subst hq
        refine ⟨by simp, ?_⟩
        intro x hx
        simp at hx
        exact Or.inr hx
      · rw [hlook] at hq h
        subst hq
        simp only [Option.getD_some] at h ⊢
        have hmem : (u, l) ∈ idx := lookupIdx_mem hlook
        have hsl := hs _ hmem
        have hbl := hb _ hmem
        have hall : ∀ x ∈ l, x < d := by
          intro x hx
          rcases lt_or_eq_of_le (hbl x hx) with h1 | h1
          · exact h1
          · exfalso
            obtain ⟨y, hy1, hy2⟩ := mem_le_getLast? hsl x hx
            have hyd : y ≤ d := hbl y (getLast?_mem_of_eq hy1)
            have : y = d := le_antisymm hyd (h1 ▸ hy2)
            exact h (this ▸ hy1)
        constructor
        · refine List.pairwise_append.mpr ⟨hsl, by simp, ?_⟩
          intro x hx y hy
          simp at hy
          subst hy
          exact hall x hx
        · intro x hx
          rcases List.mem_append.mp hx with hx | hx
          · exact Or.inl ⟨(u, l), hmem, hx⟩
          · simp at hx
            exact Or.inr hx
    · exact ⟨hs _ hq, fun x hx => Or.inl ⟨_, hq, hx⟩⟩

theorem addTokens_inv {d : Int} :
    ∀ (toks : List String) (idx : index),
      (∀ p ∈ idx, List.Pairwise (· < ·) p.2) →
      (∀ p ∈ idx, ∀ x ∈ p.2, x ≤ d) →
      ∀ p ∈ addTokens idx d toks,
        List.Pairwise (· < ·) p.2 ∧ ∀ x ∈ p.2, x ≤ d := by
  intro toks
  induction toks with
  | nil =>
    intro idx hs hb p hp
    exact ⟨hs p hp, hb p hp⟩
  | cons u toks ih =>
    intro idx hs hb p hp
    have hstep := fun q hq => @addToken_inv idx d u hs hb q hq
    have hs1 : ∀ q ∈ addToken idx d u, List.Pairwise (· < ·) q.2 :=
      fun q hq => (hstep q hq).1
    have hb1 : ∀ q ∈ addToken idx d u, ∀ x ∈ q.2, x ≤ d := by
      intro q hq x hx
      rcases (hstep q hq).2 x hx with ⟨q2, hq2, hx2⟩ | hx2
      · exact hb q2 hq2 x hx2
      · exact le_of_eq hx2
    exact ih (addToken idx d u) hs1 hb1 p hp

theorem add_inv (stem : String → String) :
    ∀ (docs : List document) (idx : index),
      (∀ p ∈ idx, List.Pairwise (· < ·) p.2) →
      (∀ p ∈ idx, ∀ x ∈ p.2, ∀ D ∈ docs, x < D.ID) →
      List.Pairwise (· < ·) (docs.map document.ID) →
      ∀ p ∈ index.add stem idx docs, List.Pairwise (· < ·) p.2 := by
  intro docs
  induction docs with
  | nil =>
    intro idx hs _ _ p hp
    exact hs p hp
  | cons D docs ih =>
    intro idx hs hb hd p hp
    have h1 := addTokens_inv (analyze stem D.Text) idx hs
      (fun q hq x hx => le_of_lt (hb q hq x hx D (List.mem_cons_self _ _)))
    refine ih (addTokens idx D.ID (analyze stem D.Text)) (fun q hq => (h1 q hq).1)
      ?_ (List.Pairwise.of_cons hd) p hp
    intro q hq x hx D2 hD2
    have hxle := (h1 q hq).2 x hx
    have hlt : D.ID < D2.ID :=
      List.rel_of_pairwise_cons hd (List.mem_map_of_mem document.ID hD2)
    omega

theorem addAll_eq_add_join (stem : String → String) :
    ∀ (batches : List (List document)) (idx : index),
      batches.foldl (index.add stem) idx = index.add stem idx batches.flatten := by
  intro batches
  induction batches with
  | nil => intro idx; rfl
  | cons b bs ih =>
    intro idx
    show bs.foldl (index.add stem) (index.add stem idx b) = _
    rw [ih (index.add stem idx b)]
    unfold index.add
    rw [List.flatten_cons, List.foldl_append]

/-- C3: starting from the empty index, any sequence of `add` calls that
supplies documents with strictly increasing ids across all calls leaves
every stored posting list strictly increasing, hence duplicate-free. -/
theorem add_postings_strictly_increasing (stem : String → String)
    (batches : List (List document)) (p : String × List Int)
    (hinc : List.Pairwise (· < ·) (batches.flatten.map document.ID))
    (hp : p ∈ addAll stem batches) :
    List.Pairwise (· < ·) p.2 ∧ p.2.Nodup := by
  rw [addAll, addAll_eq_add_join] at hp
  have hs := add_inv stem batches.flatten [] (by simp) (by simp) hinc p hp
  exact ⟨hs, hs.imp (fun h => ne_of_lt h)⟩

theorem add_postings_strictly_increasing_witness :
    List.Pairwise (· < ·) [(0 : Int), 1] ∧ [(0 : Int), 1].Nodup :=
  add_postings_strictly_increasing (fun s => s)
    [[⟨"t", "u", "donut", [], 0⟩], [⟨"t", "u", "donut wild", [], 1⟩]]
    ("donut", [0, 1]) (by decide) (by decide)

theorem addToken_nonempty {idx : index} {d : Int} {u : String}
    (h : ∀ p ∈ idx, p.2 ≠ []) : ∀ p ∈ addToken idx d u, p.2 ≠ [] := by
  intro p hp
  unfold addToken at hp
  by_cases hc : ((lookupIdx idx u).getD []).getLast? = some d
  · rw [if_pos hc] at hp
    exact h p hp
  · rw [if_neg hc] at hp
    rcases mem_insertIdx hp with hq | hq
    · rw [hq]
      simp
    · exact h p hq

theorem addTokens_nonempty {d : Int} :
    ∀ (toks : List String) (idx : index), (∀ p ∈ idx, p.2 ≠ []) →
      ∀ p ∈ addTokens idx d toks, p.2 ≠ [] := by
  intro toks
  induction toks with
  | nil => intro idx h p hp; exact h p hp
  | cons u toks ih =>
    intro idx h p hp
    exact ih (addToken idx d u) (addToken_nonempty h) p hp

theorem add_nonempty (stem : String → String) :
    ∀ (docs : List document) (idx : index), (∀ p ∈ idx, p.2 ≠ []) →
      ∀ p ∈ index.add stem idx docs, p.2 ≠ [] := by
  intro docs
  induction docs with
  | nil => intro idx h p hp; exact h p hp
  | cons D docs ih =>
    intro idx h p hp
    exact ih (addTokens idx D.ID (analyze stem D.Text))
      (addTokens_nonempty (analyze stem D.Text) idx h) p hp

/-- C9: in an index built from empty solely by `add` calls, every term
key present in the mapping carries a non-empty posting list. -/
theorem postings_nonempty (stem : String → String) (batches : List (List document))
    (p : String × List Int) (hp : p ∈ addAll stem batches) : p.2 ≠ [] := by
  rw [addAll, addAll_eq_add_join] at hp
  exact add_nonempty stem batches.flatten [] (by simp) p hp

theorem postings_nonempty_witness :
    ("donut", [(0 : Int)]) ∈ addAll (fun s => s) [[⟨"t", "u", "donut", [], 0⟩]] ∧
      ("donut", [(0 : Int)]).2 ≠ [] :=
  ⟨by decide, postings_nonempty (fun s => s) [[⟨"t", "u", "donut", [], 0⟩]]
    ("donut", [0]) (by decide)⟩

theorem addToken_extends {idx : index} {t : String} {l : List Int} (d : Int) (u : String)
    (h : lookupIdx idx t = some l) :
    ∃ tail, lookupIdx (addToken idx d u) t = some (l ++ tail) := by
  unfold addToken
  by_cases hc : ((lookupIdx idx u).getD []).getLast? = some d
  · rw [if_pos hc]
    exact ⟨[], by simp [h]⟩
  · rw [if_neg hc, lookupIdx_insertIdx]
    by_cases hu : u = t
    · subst hu
      rw [if_pos rfl, h]
      exact ⟨[d], rfl⟩
    · rw [if_neg hu]
      exact ⟨[], by simp [h]⟩

theorem addTokens_extends (d : Int) :
    ∀ (toks : List String) (idx : index) (t : String) (l : List Int),
      lookupIdx idx t = some l →
      ∃ tail, lookupIdx (addTokens idx d toks) t = some (l ++ tail) := by
  intro toks
  induction toks with
  | nil =>
    intro idx t l h
    exact ⟨[], by simp [addTokens, h]⟩
  | cons u toks ih =>
    intro idx t l h
    obtain ⟨tail1, h1⟩ := addToken_extends d u h
    obtain ⟨tail2, h2⟩ := ih (addToken idx d u) t (l ++ tail1) h1
    exact ⟨tail1 ++ tail2, by rw [← List.append_assoc]; exact h2⟩

/-- C10: `add` only extends posting lists: a term bound to a non-empty
posting list before the call is bound afterwards to that same list with
entries only appended at the end. -/
theorem add_extends_postings (stem : String → String) (idx : index)
    (docs : List document) (t : String) (l : List Int)
    (h : lookupIdx idx t = some l) (hne : l ≠ []) :
    ∃ tail, lookupIdx (index.add stem idx docs) t = some (l ++ tail) := by
  clear hne
  induction docs generalizing idx l with
  | nil => exact ⟨[], by simp [index.add, h]⟩
  | cons D docs ih =>
    obtain ⟨tail1, h1⟩ := addTokens_extends D.ID (analyze stem D.Text) idx t l h
    obtain ⟨tail2, h2⟩ := ih (addTokens idx D.ID (analyze stem D.Text)) (l ++ tail1) h1
    exact ⟨tail1 ++ tail2, by rw [← List.append_assoc]; exact h2⟩

theorem add_extends_postings_witness :
    lookupIdx [("cat", [7])] "cat" = some [(7 : Int)] ∧ [(7 : Int)] ≠ [] ∧
      ∃ tail,
        lookupIdx (index.add (fun s => s) [("cat", [7])] [⟨"t", "u", "wild cat", [], 9⟩])
          "cat" = some ([(7 : Int)] ++ tail) :=
  ⟨by decide, by decide,
    add_extends_postings (fun s => s) [("cat", [7])] [⟨"t", "u", "wild cat", [], 9⟩]
      "cat" [7] (by decide) (by decide)⟩

theorem addTokens_lookup (d : Int) :
    ∀ (toks : List String) (idx : index),
      (∀ s l, lookupIdx idx s = some l → (d ∈ l ↔ l.getLast? = some d)) →
      ∀ t, lookupIdx (addTokens idx d toks) t =
        if t ∈ toks ∧ ¬ ((lookupIdx idx t).getD []).getLast? = some d
        then some (((lookupIdx idx t).getD []) ++ [d])
        else lookupIdx idx t := by
  intro toks
  induction toks with
  | nil =>
    intro idx _ t
    simp [addTokens]
  | cons u toks ih =>
    intro idx hinv t
    have hstep : addTokens idx d (u :: toks) = addTokens (addToken idx d u) d toks := rfl
    by_cases hcu : ((lookupIdx idx u).getD []).getLast? = some d
    · have hskip : addToken idx d u = idx := by rw [addToken, if_pos hcu]
      rw [hstep, hskip, ih idx hinv t]
      by_cases hut : t = u
      · subst hut
        have h1 : ¬ (t ∈ toks ∧ ¬ ((lookupIdx idx t).getD []).getLast? = some d) := by
          rintro ⟨_, hc⟩
          exact hc hcu
        have h2 : ¬ (t ∈ t :: toks ∧ ¬ ((lookupIdx idx t).getD []).getLast? = some d) := by
          rintro ⟨_, hc⟩
          exact hc hcu
        rw [if_neg h1, if_neg h2]
      · simp only [List.mem_cons, hut, false_or]
    · have hins : addToken idx d u = insertIdx idx u (((lookupIdx idx u).getD []) ++ [d]) := by
        rw [addToken, if_neg hcu]
      have hlast : (((lookupIdx idx u).getD []) ++ [d]).getLast? = some d := by
        rw [List.getLast?_append_cons]
        rfl
      have hlook1 : ∀ s, lookupIdx (addToken idx d u) s =
          if u = s then some (((lookupIdx idx u).getD []) ++ [d]) else lookupIdx idx s := by
        intro s
        rw [hins, lookupIdx_insertIdx]
      have hinv1 : ∀ s l, lookupIdx (addToken idx d u) s = some l →
          (d ∈ l ↔ l.getLast? = some d) := by
        intro s l hl
        rw [hlook1 s] at hl
        by_cases hus : u = s
        · rw [if_pos hus] at hl
          cases hl
          constructor
          · intro _
            exact hlast
          · intro _
            simp
        · rw [if_neg hus] at hl
          exact hinv s l hl
      rw [hstep, ih (addToken idx d u) hinv1 t]
      by_cases hut : t = u
      · subst hut
        rw [hlook1 t, if_pos rfl]
        have hc1 : ¬ (t ∈ toks ∧
            ¬ ((some (((lookupIdx idx t).getD []) ++ [d])).getD []).getLast? = some d) := by
          rintro ⟨_, hc⟩
          exact hc hlast
        have hns : (if t = t then some (((lookupIdx idx t).getD []) ++ [d])
            else lookupIdx idx t) = some (((lookupIdx idx t).getD []) ++ [d]) := by
          rw [if_pos rfl]
        simp only [hns, Option.getD_some] at hc1 ⊢
        rw [if_neg hc1, if_pos ⟨List.mem_cons_self t toks, hcu⟩]
      · have hne : ¬ u = t := fun h => hut h.symm
        have hsame : lookupIdx (addToken idx d u) t = lookupIdx idx t := by
          rw [hlook1 t, if_neg hne]
        rw [hsame]
        simp only [List.mem_cons, hut, false_or]

/-- C6: adding a single document whose id is not yet anywhere in a
well-formed index (no empty posting lists, which would make the Go
adjacency check panic) records that id exactly once in the posting list
of each term of the document's analyzed text, even when the term occurs
several times in the text. -/
theorem add_doc_id_once (stem : String → String) (idx : index) (D : document) (t : String)
    (hfresh : ∀ p ∈ idx, D.ID ∉ p.2)
    (hwf : ∀ p ∈ idx, p.2 ≠ [])
    (ht : t ∈ analyze stem D.Text) :
    ∃ l, lookupIdx (index.add stem idx [D]) t = some l ∧ l.count D.ID = 1 := by
  have hadd : index.add stem idx [D] = addTokens idx D.ID (analyze stem D.Text) := rfl
  have hinv : ∀ s l, lookupIdx idx s = some l → (D.ID ∈ l ↔ l.getLast? = some D.ID) := by
    intro s l hl
    have h1 : D.ID ∉ l := hfresh _ (lookupIdx_mem hl)
    constructor
    · intro h
      exact absurd h h1
    · intro h
      exact absurd (getLast?_mem_of_eq h) h1
  have hcount : ((lookupIdx idx t).getD []).count D.ID = 0 := by
    rw [List.count_eq_zero]
    rcases hl : lookupIdx idx t with _ | l
    · simp
    · exact hfresh _ (lookupIdx_mem hl)
  have hhit : ¬ ((lookupIdx idx t).getD []).getLast? = some D.ID := by
    intro h
    have := getLast?_mem_of_eq h
    rw [List.count_eq_zero] at hcount
    exact hcount this
  rw [hadd, addTokens_lookup D.ID (analyze stem D.Text) idx hinv t,
    if_pos ⟨ht, hhit⟩]
  refine ⟨_, rfl, ?_⟩
  rw [List.count_append, hcount]
  simp

theorem add_doc_id_once_witness :
    ∃ l,
      lookupIdx
        (index.add (fun s => s) [("wild", [0])] [⟨"t", "u", "donut cat donut", [], 1⟩])
        "donut" = some l ∧ l.count (1 : Int) = 1 :=
  add_doc_id_once (fun s => s) [("wild", [0])] ⟨"t", "u", "donut cat donut", [], 1⟩
    "donut" (by decide) (by decide) (by decide)

theorem loadPostings_round (ps : List Int) (rest : List GobTok) :
    loadPostings ps.length (ps.map GobTok.num ++ rest) = some (ps, rest) := by
  induction ps with
  | nil => rfl
  | cons x ps ih => simp [loadPostings, ih]

theorem loadEntries_round (idx : index) (rest : List GobTok) :
    loadEntries idx.length
      (idx.flatMap (fun p => GobTok.str p.1 :: GobTok.num p.2.length :: p.2.map GobTok.num)
        ++ rest) = some (idx, rest) := by
  induction idx with
  | nil => rfl
  | cons p idx ih =>
    obtain ⟨k, ps⟩ := p
    simp only [List.flatMap_cons, List.cons_append, List.append_assoc, List.length_cons]
    rw [loadEntries]
    simp only [Int.toNat_natCast, loadPostings_round, ih]

/-- C2: the persistence codec round-trips: loading a saved index yields
the same term keys bound to the same posting lists in the same order
(modelled from the spec, section 4.4; the Go source delegates this to the
external `encoding/gob` library). -/
theorem load_save_roundtrip (idx : index) : loadIndex (saveIndex idx) = some idx := by
  unfold saveIndex loadIndex
  have h := loadEntries_round idx []
  rw [List.append_nil] at h
  simp only [Int.toNat_natCast, h]

/-- C5, counterexample: with the corpus loaded and the index built in
memory, a failing index write (here: `encoder.Encode` fails) makes the
program panic, so the run never reaches the query-and-print step — the
freshly built index is never queried, contrary to the claim. -/
theorem write_failure_query_not_run :
    Outcome.ranQuery
      (mainFlow (fun s => s) ⟨.statNotExists, true, none, some [], true, false⟩) = false := by
  decide

/-- C5, amended: if writing the persisted index fails (`os.Create` or
`encoder.Encode` fails) after the index was successfully built in memory,
the program panics and terminates; the query step does not execute in
that run. -/
theorem write_failure_panics (stem : String → String) (env : Env)
    (h1 : env.statResult = .statNotExists)
    (h2 : env.docsResult.isSome)
    (h3 : env.createOk = false ∨ env.encodeOk = false) :
    mainFlow stem env = .panicked ∧ Outcome.ranQuery (mainFlow stem env) = false := by
  obtain ⟨docs, hd⟩ := Option.isSome_iff_exists.mp h2
  rcases h3 with h3 | h3
  · simp [mainFlow, h1, hd, h3, Outcome.ranQuery]
  · cases hc : env.createOk <;>
      simp [mainFlow, h1, hd, h3, hc, Outcome.ranQuery]

theorem write_failure_panics_witness :
    mainFlow (fun s => s) ⟨.statNotExists, true, none, some [], false, true⟩ = .panicked ∧
      Outcome.ranQuery
        (mainFlow (fun s => s) ⟨.statNotExists, true, none, some [], false, true⟩) = false :=
  write_failure_panics (fun s => s) ⟨.statNotExists, true, none, some [], false, true⟩
    rfl (by decide) (Or.inl rfl)

/-- C8, counterexample: an index file that exists but cannot be opened
makes the program panic, while an absent index file leads to a rebuild
that reaches the query step — the two environments, identical except for
that difference, produce different program outcomes. -/
theorem corrupt_vs_missing_differ :
    mainFlow (fun s => s) ⟨.statExists, false, none, some [], true, true⟩ ≠
      mainFlow (fun s => s) ⟨.statNotExists, true, none, some [], true, true⟩ := by
  decide

/-- C8, amended: when the persisted index file exists, a failure to open
it panics, and a gob decode failure is silently ignored (fts.go line 182
discards the decode error), so the program queries the still-empty index
without rebuilding — each distinct from the not-exists path, which
rebuilds from the corpus and saves. -/
theorem corrupt_index_behavior (stem : String → String) (env : Env)
    (h1 : env.statResult = .statExists) :
    (env.openOk = false → mainFlow stem env = .panicked) ∧
      (env.openOk = true → env.decodeResult = none →
        mainFlow stem env = .printed (index.search stem [] "small wild cat")) := by
  constructor
  · intro h2
    simp [mainFlow, h1, h2]
  · intro h2 h3
    simp [mainFlow, h1, h2, h3]

theorem corrupt_index_behavior_witness :
    mainFlow (fun s => s) ⟨.statExists, false, none, none, true, true⟩ = .panicked ∧
      mainFlow (fun s => s) ⟨.statExists, true, none, none, true, true⟩ =
        .printed (index.search (fun s => s) [] "small wild cat") :=
  ⟨(corrupt_index_behavior (fun s => s) ⟨.statExists, false, none, none, true, true⟩ rfl).1
      rfl,
    (corrupt_index_behavior (fun s => s) ⟨.statExists, true, none, none, true, true⟩ rfl).2
      rfl rfl⟩

example : tokenize "A donut, on a glass plate!" =
    ["A", "donut", "on", "a", "glass", "plate"] := by decide
example : analyze (fun s => s) "Small wild CAT" = ["small", "wild", "cat"] := by decide
example : analyze (fun s => s) "   " = [] := by decide
example : analyze (fun s => s) "the cat and the hat" = ["cat", "hat"] := by decide
example : intersection [3, 7, 9] [7] = [7] := by simp [intersection]
example : index.search (fun s => s) [("small", [3, 7, 9]), ("cat", [7])] "small cat" =
    some [7] := by
  have h : analyze (fun s => s) "small cat" = ["small", "cat"] := by decide
  unfold index.search
  rw [h]
  simp [searchLoop, lookupIdx, intersection]
example : index.search (fun s => s) [("small", [3, 7, 9])] "small cat" = none := by decide
example : addAll (fun s => s) [[⟨"t", "u", "donut is a donut", [], 0⟩]] =
    [("donut", [0]), ("is", [0])] := by decide
example : loadIndex (saveIndex [("cat", [7]), ("small", [3, 7, 9])]) =
    some [("cat", [7]), ("small", [3, 7, 9])] := by decide
example :
    mainFlow (fun s => s) ⟨.statNotExists, true, none, some [], true, false⟩ =
      .panicked := by decide
example :
    mainFlow (fun s => s) ⟨.statExists, false, none, none, true, true⟩ =
      .panicked := by decide
example :
    mainFlow (fun s => s) ⟨.statNotExists, true, none, some [], true, true⟩ =
      .printed none := by decide
